import Mathlib

/-!
Verification of the casio-logic-calculator core pipeline: lexer
(`tokenize_expression`), precedence-climbing parser (`build_ast`), evaluator
(`evaluate_tree`) and truth-table enumerator (`generate_truth_combinations`,
`generate_truth_table`), shallowly embedded from
`src/logic_calculator.py`, `src/logic_operators.py`, `src/tokenizer.py`
and `src/syntax_tree.py`.

Conventions of the embedding:
* Python booleans/ints flowing through the operator lambdas are modelled as
  `Bool`; the `int(...)` wrappers in `logic_operators.py` only render
  truthiness as `0`/`1`, which the table generator reproduces with
  `if result then 1 else 0` exactly as `1 if result else 0` does.
* Raised exceptions are modelled with `Except`/`Option` results:
  `ValueError` in the lexer becomes `LexErr.unknownChar`, every parse
  failure (`ValueError` on an unexpected token, `IndexError` on popping an
  empty list) becomes `none`, and the evaluator's possible `KeyError` /
  `TypeError` / `AttributeError` become the `EvalErr` constructors.
* The mutually recursive parser procedures and the lexer loop are given an
  explicit fuel argument so that every definition is structurally recursive
  and kernel-computable; the public wrappers supply fuel that dominates the
  actual recursion depth (each step consumes at least one token/character).
-/

/-- `TokenType` from `src/tokenizer.py`: OPERATOR / OPERAND / PARENTHESIS. -/
inductive TokenType where
  | operator
  | operand
  | parenthesis
deriving DecidableEq, Repr

/-- A token/node value: Python stores either a `bool` (for TRUE/FALSE
literals) or a `str` (variable name, operator symbol, or parenthesis). -/
inductive TValue where
  | bool (b : Bool)
  | str (s : String)
deriving DecidableEq, Repr

/-- `Token` from `src/tokenizer.py`.  The unused-by-the-core `func` slot is
not carried: `build_ast` and `evaluate_tree` consult only `value`,
`token_type`, `precedence` and `associativity`, and the evaluation function
is recovered from the operator table by name.  Python's `None` defaults for
`precedence`/`associativity` are modelled by `0`/`""`, which the code never
inspects on non-operator tokens (the comparison in `parse_operator` is
short-circuited behind the `token_type == OPERATOR` test). -/
structure Token where
  tokenType : TokenType
  value : TValue
  precedence : Nat
  associativity : String
deriving DecidableEq, Repr

/-- Operator evaluation function: unary (NOT) or binary (the rest). -/
inductive OpFun where
  | unary (f : Bool → Bool)
  | binary (f : Bool → Bool → Bool)

/-- The operator table from `src/logic_operators.py`, in dictionary
(insertion) order.  Each Python lambda `int(e)` is modelled by the `Bool`
function with the same truthiness. -/
def operators : List (String × Nat × OpFun) :=
  [("NOT", 1, .unary fun a => !a),
   ("AND", 2, .binary fun a b => a && b),
   ("XOR", 3, .binary fun a b => a != b),
   ("OR",  4, .binary fun a b => a || b),
   ("IMP", 5, .binary fun a b => !a || b),
   ("IFF", 6, .binary fun a b => a == b)]

/-- Lexer failure: `ValueError("Unknown character: ...")`, plus an
out-of-fuel marker that the wrapper's fuel budget never reaches. -/
inductive LexErr where
  | unknownChar (c : Char)
  | outOfFuel
deriving DecidableEq, Repr

/-- Shorthand for the token the lexer emits for an operator keyword:
`Token(OPERATOR, op, precedence, associativity, func)` with
`associativity = "right" if op == "NOT" else "left"`. -/
def opToken (name : String) (prec : Nat) : Token :=
  ⟨.operator, .str name, prec, if name = "NOT" then "right" else "left"⟩

/-- Shorthand for `Token(OPERAND, value)`. -/
def operandToken (v : TValue) : Token := ⟨.operand, v, 0, ""⟩

/-- Shorthand for `Token(PARENTHESIS, s)`. -/
def parenToken (s : String) : Token := ⟨.parenthesis, .str s, 0, ""⟩

/-- One keyword test of the lexer's matching: does keyword `kw` occur at the
start of the remaining input (`expression[index:index+len(op)] == op`)? -/
def kwAt (kw : String) (s : List Char) : Bool := kw.toList.isPrefixOf s

/-- The scanning loop of `tokenize_expression` (`src/logic_calculator.py`
lines 17-54) over the upper-cased character list, with explicit fuel.  The
branch order is the source's: whitespace, `(`, `)`, `TRUE`, `FALSE`, the six
operator keywords in dictionary order, single alphabetic character, error. -/
def tokenizeLoop : Nat → List Char → Except LexErr (List Token)
  | 0, _ => .error .outOfFuel
  | _ + 1, [] => .ok []
  | fuel + 1, c :: rest =>
    if c.isWhitespace then tokenizeLoop fuel rest
    else if c = '(' then (tokenizeLoop fuel rest).map (parenToken "(" :: ·)
    else if c = ')' then (tokenizeLoop fuel rest).map (parenToken ")" :: ·)
    else if kwAt "TRUE" (c :: rest) then
      (tokenizeLoop fuel ((c :: rest).drop 4)).map (operandToken (.bool true) :: ·)
    else if kwAt "FALSE" (c :: rest) then
      (tokenizeLoop fuel ((c :: rest).drop 5)).map (operandToken (.bool false) :: ·)
    else if kwAt "NOT" (c :: rest) then
      (tokenizeLoop fuel ((c :: rest).drop 3)).map (opToken "NOT" 1 :: ·)
    else if kwAt "AND" (c :: rest) then
      (tokenizeLoop fuel ((c :: rest).drop 3)).map (opToken "AND" 2 :: ·)
    else if kwAt "XOR" (c :: rest) then
      (tokenizeLoop fuel ((c :: rest).drop 3)).map (opToken "XOR" 3 :: ·)
    else if kwAt "OR" (c :: rest) then
      (tokenizeLoop fuel ((c :: rest).drop 2)).map (opToken "OR" 4 :: ·)
    else if kwAt "IMP" (c :: rest) then
      (tokenizeLoop fuel ((c :: rest).drop 3)).map (opToken "IMP" 5 :: ·)
    else if kwAt "IFF" (c :: rest) then
      (tokenizeLoop fuel ((c :: rest).drop 3)).map (opToken "IFF" 6 :: ·)
    else if c.isAlpha then
      (tokenizeLoop fuel rest).map (operandToken (.str c.toString) :: ·)
    else .error (.unknownChar c)

/-- `tokenize_expression`: upper-case the input, then scan.  Every loop step
consumes at least one character, so `length + 1` fuel always suffices. -/
def tokenizeExpression (expression : String) : Except LexErr (List Token) :=
  let chars := expression.toList.map Char.toUpper
  tokenizeLoop (chars.length + 1) chars

/-- `ASTNode` from `src/syntax_tree.py`: `value` plus two optional children
`left`, `right`.  The four constructors enumerate the presence patterns of
the optional children (`left=None,right=None` / `left` only / both /
`right` only, where the last shape is constructible in Python but never
built by the parser). -/
inductive ASTNode where
  | leaf (value : TValue)
  | unary (value : TValue) (left : ASTNode)
  | binary (value : TValue) (left right : ASTNode)
  | rightOnly (value : TValue) (right : ASTNode)
deriving DecidableEq, Repr

/-- The `value` attribute. -/
def ASTNode.value : ASTNode → TValue
  | .leaf v => v
  | .unary v _ => v
  | .binary v _ _ => v
  | .rightOnly v _ => v

/-- The `left` attribute. -/
def ASTNode.left : ASTNode → Option ASTNode
  | .leaf _ => none
  | .unary _ l => some l
  | .binary _ l _ => some l
  | .rightOnly _ _ => none

/-- The `right` attribute. -/
def ASTNode.right : ASTNode → Option ASTNode
  | .leaf _ => none
  | .unary _ _ => none
  | .binary _ _ r => some r
  | .rightOnly _ r => some r

mutual

/-- `parse_primary` from `build_ast` (`src/logic_calculator.py` lines
69-82).  Pops the first token; an OPERAND becomes a leaf; `(` parses a
sub-expression via `build_ast` (= `parse_operator(0)`) and then consumes a
closing `)` only if one is present; `NOT` wraps a recursive
`parse_primary` in a unary node; anything else (including an empty token
list, where Python's `pop` raises `IndexError`) fails.  Returns the node
together with the remaining (mutated-in-Python) token list. -/
def parsePrimary : Nat → List Token → Option (ASTNode × List Token)
  | 0, _ => none
  | _ + 1, [] => none
  | _ + 1, ⟨.operand, v, _, _⟩ :: rest => some (.leaf v, rest)
  | fuel + 1, ⟨.parenthesis, v, _, _⟩ :: rest =>
    if v = .str "(" then
      match parseOperator fuel 0 rest with
      | none => none
      | some (node, rest') =>
        match rest' with
        | tok2 :: rest'' =>
          if tok2.value = .str ")" then some (node, rest'') else some (node, rest')
        | [] => some (node, [])
    else none
  | fuel + 1, ⟨.operator, v, _, _⟩ :: rest =>
    if v = .str "NOT" then
      match parsePrimary fuel rest with
      | none => none
      | some (operand, rest') => some (.unary v operand, rest')
    else none

/-- `parse_operator(precedence_level)` (`src/logic_calculator.py` lines
83-90): a `parse_primary` followed by the binary-operator while-loop. -/
def parseOperator : Nat → Nat → List Token → Option (ASTNode × List Token)
  | 0, _, _ => none
  | fuel + 1, precedenceLevel, tokens =>
    match parsePrimary fuel tokens with
    | none => none
    | some (node, rest) => parseLoop fuel precedenceLevel node rest

/-- The while-loop of `parse_operator`: while the next token is an OPERATOR
with `precedence >= precedence_level`, pop it, compute
`next_precedence = precedence + 1` if its associativity is `"left"` (else
`precedence`), recursively parse the right operand at that level and fold
it into a binary node. -/
def parseLoop : Nat → Nat → ASTNode → List Token → Option (ASTNode × List Token)
  | 0, _, _, _ => none
  | _ + 1, _, node, [] => some (node, [])
  | fuel + 1, precedenceLevel, node, token :: rest =>
    if token.tokenType = .operator ∧ token.precedence ≥ precedenceLevel then
      let nextPrecedence :=
        if token.associativity = "left" then token.precedence + 1 else token.precedence
      match parseOperator fuel nextPrecedence rest with
      | none => none
      | some (right, rest') => parseLoop fuel precedenceLevel (.binary token.value node right) rest'
    else some (node, token :: rest)

end

/-- `build_ast(tokens)` = `parse_operator(0)`.  The fuel `2·length + 2`
dominates the recursion depth: every nested call first consumes at least
one token through a `parse_primary`, and each token costs at most two
stack levels (`parse_operator` + `parse_primary` for a `(`). -/
def buildAst (tokens : List Token) : Option (ASTNode × List Token) :=
  parseOperator (2 * tokens.length + 2) 0 tokens

/-- Evaluation failure.  `missingOp` is the `KeyError` for an operator
absent from the table (the spec's `EvalError`); `arity` is the `TypeError`
of calling the looked-up lambda with the wrong number of arguments;
`nullChild` is the `AttributeError` of recursing into `node.left` when it
is `None` (the `right`-only shape). -/
inductive EvalErr where
  | missingOp (v : TValue)
  | arity
  | nullChild
deriving DecidableEq, Repr

/-- `logic_operators.operators[v]` as a lookup: only string values can be
dictionary keys that are present. -/
def opLookup (v : TValue) : Option OpFun :=
  match v with
  | .str s => (operators.find? (fun e => e.1 = s)).map (fun e => e.2.2)
  | .bool _ => none

/-- `evaluate_tree(node, variable_values)` (`src/logic_calculator.py`
lines 93-120).  Leaves: a string value is a variable looked up in the
assignment with default `False`; a boolean value is the constant itself.
A node with only `left` applies the table's function for `node.value` to
the evaluated child; a node with both children applies it to both
evaluated children (left first).  The `right`-only shape falls into the
binary branch in Python and crashes on `node.left.left` — modelled as
`nullChild`. -/
def evaluateTree (node : ASTNode) (variableValues : List (String × Bool)) :
    Except EvalErr Bool :=
  match node with
  | .leaf v =>
    match v with
    | .str s => .ok ((((variableValues.find? (fun p => p.1 = s)).map Prod.snd).getD false))
    | .bool b => .ok b
  | .unary v l => do
    let operand ← evaluateTree l variableValues
    match opLookup v with
    | some (.unary f) => .ok (f operand)
    | some (.binary _) => .error .arity
    | none => .error (.missingOp v)
  | .binary v l r => do
    let leftValue ← evaluateTree l variableValues
    let rightValue ← evaluateTree r variableValues
    match opLookup v with
    | some (.binary f) => .ok (f leftValue rightValue)
    | some (.unary _) => .error .arity
    | none => .error (.missingOp v)
  | .rightOnly _ _ => .error .nullChild

/-- `generate_truth_combinations(n)` (`src/logic_calculator.py` lines
122-139): for each `i < 2^n` the list of bits `(i >> j) & 1` for
`j = 0..n-1`, reversed. -/
def generateTruthCombinations (n : Nat) : List (List Nat) :=
  (List.range (2 ^ n)).map
    (fun i => ((List.range n).map (fun j => (i >>> j) &&& 1)).reverse)

/-- `generate_truth_table(ast, variables)` (`src/logic_calculator.py`
lines 141-174) restricted to its returned value (printing is I/O glue and
`return_as_dict` defaults to `False`): one row per combination, the row
being the combination followed by `1 if result else 0`, where the result
evaluates the AST under `{var: bool(val) for var, val in zip(variables,
combination)}`.  An evaluation exception aborts the whole table, which
`mapM` in `Except` reproduces. -/
def generateTruthTable (ast : ASTNode) (vars : List String) :
    Except EvalErr (List (List Nat)) :=
  (generateTruthCombinations vars.length).mapM (fun combination => do
    let variableValues := List.zip vars (combination.map (fun val => val ≠ 0))
    let result ← evaluateTree ast variableValues
    pure (combination ++ [if result then 1 else 0]))

/-! ## Concrete parses and counterexamples -/

/-- C1: the claim says a smaller precedence number binds tighter, so that
`A AND B OR C` parses as `(A AND B) OR C`.  The code disagrees: the
climbing loop keeps consuming while `precedence >= precedence_level` and
raises the threshold to `precedence + 1`, which makes a *larger* number
bind tighter, so `A AND B OR C` parses as `A AND (B OR C)`.  This theorem
evaluates the pipeline at the failing input. -/
theorem c1_parse_at_failing_input :
    tokenizeExpression "A AND B OR C" =
      .ok [operandToken (.str "A"), opToken "AND" 2, operandToken (.str "B"),
           opToken "OR" 4, operandToken (.str "C")] ∧
    buildAst [operandToken (.str "A"), opToken "AND" 2, operandToken (.str "B"),
           opToken "OR" 4, operandToken (.str "C")] =
      some (.binary (.str "AND") (.leaf (.str "A"))
        (.binary (.str "OR") (.leaf (.str "B")) (.leaf (.str "C"))), []) ∧
    (ASTNode.binary (.str "AND") (.leaf (.str "A"))
        (.binary (.str "OR") (.leaf (.str "B")) (.leaf (.str "C"))) ≠
      ASTNode.binary (.str "OR")
        (.binary (.str "AND") (.leaf (.str "A")) (.leaf (.str "B")))
        (.leaf (.str "C"))) :=
  ⟨rfl, rfl, by decide⟩

/-- C2 counterexample: the claim says every structurally invalid token
sequence — in particular one with unconsumed trailing tokens, such as the
one lexed from `"A AN"` — makes parsing fail.  In the code `"A AN"` lexes
to the three variables `A`, `A`, `N` and `build_ast` happily returns the
leaf `A`, leaving the two trailing tokens unconsumed and raising nothing. -/
theorem c2_trailing_tokens_accepted :
    tokenizeExpression "A AN" =
      .ok [operandToken (.str "A"), operandToken (.str "A"), operandToken (.str "N")] ∧
    buildAst [operandToken (.str "A"), operandToken (.str "A"), operandToken (.str "N")] =
      some (.leaf (.str "A"), [operandToken (.str "A"), operandToken (.str "N")]) :=
  ⟨rfl, rfl⟩

/-- C2 amended: parsing fails when an unexpected token stands where an
operand was required (empty input, a leading `)`, a binary operator with a
missing operand), but unconsumed trailing tokens after a complete
expression are silently ignored rather than rejected: `"A AN"` lexes to
the variables `A`, `A`, `N` and parses without error to the single leaf
`A`, leaving `A`, `N` unconsumed. -/
theorem c2_amended_parse_failures :
    buildAst [] = none ∧
    (tokenizeExpression ") A" = .ok [parenToken ")", operandToken (.str "A")] ∧
      buildAst [parenToken ")", operandToken (.str "A")] = none) ∧
    (tokenizeExpression "A AND" = .ok [operandToken (.str "A"), opToken "AND" 2] ∧
      buildAst [operandToken (.str "A"), opToken "AND" 2] = none) ∧
    (tokenizeExpression "A AN" =
        .ok [operandToken (.str "A"), operandToken (.str "A"), operandToken (.str "N")] ∧
      buildAst [operandToken (.str "A"), operandToken (.str "A"), operandToken (.str "N")] =
        some (.leaf (.str "A"), [operandToken (.str "A"), operandToken (.str "N")])) :=
  ⟨rfl, ⟨rfl, rfl⟩, ⟨rfl, rfl⟩, rfl, rfl⟩

/-- C4 counterexample: the claim says an empty ordered variable list
produces a table with no result row.  The code produces exactly one row:
`generate_truth_combinations(0)` yields the single empty combination, and
the table for it is `[[1]]` (here for the constant-`True` tree), which is
not the empty table. -/
theorem c4_zero_vars_one_row :
    generateTruthTable (.leaf (.bool true)) [] = .ok [[1]] ∧
    ([[1]] : List (List Nat)) ≠ [] :=
  ⟨rfl, by decide⟩

/-- C4 amended: with an empty ordered variable list the enumerator does not
produce an empty table; it produces exactly one row, holding only the
result (rendered `1`/`0`) of evaluating the tree under the empty
assignment. -/
theorem c4_amended_zero_vars (ast : ASTNode) :
    generateTruthTable ast [] =
      Except.map (fun result => [[if result then 1 else 0]]) (evaluateTree ast []) := by
  have hcomb : generateTruthCombinations 0 = [[]] := rfl
  simp only [generateTruthTable, List.length_nil, hcomb, List.mapM_cons, List.mapM_nil]
  cases h : evaluateTree ast [] with
  | ok b => simp [h, Except.map]
  | error e => simp [h, Except.map]

/-- C8 counterexample: the claim says a maximal run of letters that does
not match `TRUE`/`FALSE`/an operator keyword is lexed one character at a
time as independent single-letter variables.  The run `ANOT` matches no
keyword as a whole, yet the lexer recognizes the keyword `NOT` starting at
its second character and emits `[variable A, operator NOT]` (two tokens),
not four variable tokens. -/
theorem c8_keyword_inside_run :
    tokenizeExpression "ANOT" = .ok [operandToken (.str "A"), opToken "NOT" 1] ∧
    [operandToken (.str "A"), opToken "NOT" 1] ≠
      [operandToken (.str "A"), operandToken (.str "N"),
       operandToken (.str "O"), operandToken (.str "T")] :=
  ⟨rfl, by decide⟩

/-! ## Equal-precedence chains (C6) -/

/-- An infix operator token with explicit precedence and `"left"`
associativity, as the lexer produces for every binary keyword. -/
def leftOpToken (name : String) (p : Nat) : Token := ⟨.operator, .str name, p, "left"⟩

/-- The tail of a chain `v0 op v1 op v2 ...`: for each pair an operator
token of precedence `p` followed by an operand token. -/
def chainTokensTail (p : Nat) : List (String × TValue) → List Token
  | [] => []
  | pr :: rest => leftOpToken pr.1 p :: operandToken pr.2 :: chainTokensTail p rest

/-- The token sequence of a chain of equal-precedence left-associative
binary operators over operand values. -/
def chainTokens (p : Nat) (v0 : TValue) (pairs : List (String × TValue)) : List Token :=
  operandToken v0 :: chainTokensTail p pairs

/-- The left-to-right grouping of the same chain:
`(...((v0 op1 v1) op2 v2) ...)`. -/
def chainFold (v0 : TValue) (pairs : List (String × TValue)) : ASTNode :=
  pairs.foldl (fun acc pr => .binary (.str pr.1) acc (.leaf pr.2)) (.leaf v0)

lemma chainTokensTail_length (p : Nat) (pairs : List (String × TValue)) :
    (chainTokensTail p pairs).length = 2 * pairs.length := by
  induction pairs with
  | nil => rfl
  | cons pr rest ih => simp [chainTokensTail, ih]; omega

/-- One-step unfolding: `parse_operator` begins with a `parse_primary`. -/
lemma parseOperator_succ (f p : Nat) (t : List Token) :
    parseOperator (f + 1) p t =
      match parsePrimary f t with
      | none => none
      | some (node, rest) => parseLoop f p node rest := rfl

/-- `parse_primary` on a leading OPERAND token pops it into a leaf. -/
lemma parsePrimary_operand (f : Nat) (v : TValue) (rest : List Token) :
    parsePrimary (f + 1) (operandToken v :: rest) = some (.leaf v, rest) := rfl

/-- The operator while-loop stops on an empty token list. -/
lemma parseLoop_nil (f p : Nat) (node : ASTNode) :
    parseLoop (f + 1) p node [] = some (node, []) := rfl

/-- The operator while-loop stops when the head token is not an operator of
precedence at least the current level. -/
lemma parseLoop_stop (f p : Nat) (node : ASTNode) (tok : Token) (rest : List Token)
    (h : ¬(tok.tokenType = .operator ∧ tok.precedence ≥ p)) :
    parseLoop (f + 1) p node (tok :: rest) = some (node, tok :: rest) := by
  simp only [parseLoop]
  rw [if_neg h]

/-- The operator while-loop consumes a qualifying operator token, parses the
right operand at `precedence + 1` (left-associative) or `precedence`
(right-associative), and folds a binary node. -/
lemma parseLoop_step (f p : Nat) (node : ASTNode) (tok : Token) (rest : List Token)
    (h : tok.tokenType = .operator ∧ tok.precedence ≥ p) :
    parseLoop (f + 1) p node (tok :: rest) =
      match parseOperator f
          (if tok.associativity = "left" then tok.precedence + 1 else tok.precedence) rest with
      | none => none
      | some (right, rest') => parseLoop f p (.binary tok.value node right) rest' := by
  simp only [parseLoop]
  rw [if_pos h]

lemma parseLoop_chain (pairs : List (String × TValue)) :
    ∀ (fuel p : Nat) (node : ASTNode), 3 * pairs.length + 1 ≤ fuel →
    parseLoop fuel 0 node (chainTokensTail p pairs) =
      some (pairs.foldl (fun acc pr => .binary (.str pr.1) acc (.leaf pr.2)) node, []) := by
  induction pairs with
  | nil =>
    intro fuel p node hfuel
    obtain ⟨f, rfl⟩ : ∃ f, fuel = f + 1 := ⟨fuel - 1, by omega⟩
    exact parseLoop_nil f 0 node
  | cons pr rest ih =>
    intro fuel p node hfuel
    simp only [List.length_cons] at hfuel
    obtain ⟨h, rfl⟩ : ∃ h, fuel = h + 1 + 1 + 1 := ⟨fuel - 3, by omega⟩
    have hcond : (leftOpToken pr.1 p).tokenType = .operator ∧
        (leftOpToken pr.1 p).precedence ≥ 0 := ⟨rfl, Nat.zero_le _⟩
    have hmini : parseLoop (h + 1) (p + 1) (.leaf pr.2) (chainTokensTail p rest) =
        some (.leaf pr.2, chainTokensTail p rest) := by
      cases rest with
      | nil => exact parseLoop_nil h (p + 1) _
      | cons pr2 rest2 =>
        refine parseLoop_stop h (p + 1) _ _ _ ?_
        intro hc
        have h2 : (leftOpToken pr2.1 p).precedence ≥ p + 1 := hc.2
        have h3 : (leftOpToken pr2.1 p).precedence = p := rfl
        omega
    have hop : parseOperator (h + 1 + 1) ((leftOpToken pr.1 p).precedence + 1)
        (operandToken pr.2 :: chainTokensTail p rest) =
        some (.leaf pr.2, chainTokensTail p rest) := by
      rw [parseOperator_succ, parsePrimary_operand]
      have h3 : (leftOpToken pr.1 p).precedence = p := rfl
      rw [h3]
      exact hmini
    show parseLoop (h + 1 + 1 + 1) 0 node
        (leftOpToken pr.1 p :: operandToken pr.2 :: chainTokensTail p rest) = _
    rw [parseLoop_step (h + 1 + 1) 0 node (leftOpToken pr.1 p) _ hcond]
    have hassoc : (leftOpToken pr.1 p).associativity = "left" := rfl
    rw [hassoc, if_pos rfl, hop]
    show parseLoop (h + 1 + 1) 0 (.binary (.str pr.1) node (.leaf pr.2))
        (chainTokensTail p rest) = _
    rw [ih (h + 1 + 1) p (.binary (.str pr.1) node (.leaf pr.2)) (by omega)]
    rfl

/-- C6: chains of binary operators of equal precedence group left-to-right,
because the loop demands `token.precedence + 1` for the right operand of a
left-associative operator; in particular `A IMP B IMP C` parses as
`((A IMP B) IMP C)`.  The first conjunct covers every chain
`v0 op1 v1 op2 v2 ...` of left-associative operator tokens sharing one
precedence `p`; the second evaluates the pipeline on `A IMP B IMP C`. -/
theorem c6_left_associative_chains :
    (∀ (p : Nat) (v0 : TValue) (pairs : List (String × TValue)),
      buildAst (chainTokens p v0 pairs) = some (chainFold v0 pairs, [])) ∧
    (tokenizeExpression "A IMP B IMP C" =
      .ok [operandToken (.str "A"), opToken "IMP" 5, operandToken (.str "B"),
           opToken "IMP" 5, operandToken (.str "C")] ∧
     buildAst [operandToken (.str "A"), opToken "IMP" 5, operandToken (.str "B"),
           opToken "IMP" 5, operandToken (.str "C")] =
      some (.binary (.str "IMP")
        (.binary (.str "IMP") (.leaf (.str "A")) (.leaf (.str "B")))
        (.leaf (.str "C")), [])) := by
  refine ⟨?_, rfl, rfl⟩
  intro p v0 pairs
  have hlen : (chainTokens p v0 pairs).length = 2 * pairs.length + 1 := by
    simp [chainTokens, chainTokensTail_length]
  show parseOperator (2 * (chainTokens p v0 pairs).length + 2) 0 (chainTokens p v0 pairs) = _
  rw [hlen]
  have h4 : 2 * (2 * pairs.length + 1) + 2 = (4 * pairs.length + 3) + 1 := by omega
  rw [h4]
  rw [parseOperator_succ]
  show (match parsePrimary (4 * pairs.length + 3) (operandToken v0 :: chainTokensTail p pairs) with
    | none => none
    | some (node, rest) => parseLoop (4 * pairs.length + 3) 0 node rest) = _
  have h5 : 4 * pairs.length + 3 = (4 * pairs.length + 2) + 1 := by omega
  rw [h5, parsePrimary_operand]
  show parseLoop (4 * pairs.length + 2 + 1) 0 (.leaf v0) (chainTokensTail p pairs) = _
  exact parseLoop_chain pairs _ p (.leaf v0) (by omega)

/-! ## Alphabetic runs in the lexer (C8) -/

/-- All keywords the lexer recognizes ahead of single-letter variables:
the two literals and the six operator names. -/
def keywords : List String := ["TRUE", "FALSE", "NOT", "AND", "XOR", "OR", "IMP", "IFF"]

/-- No keyword occurs starting at any position of `s`. -/
def keywordFree : List Char → Bool
  | [] => true
  | c :: rest => keywords.all (fun kw => !(kwAt kw (c :: rest))) && keywordFree rest

lemma alpha_not_whitespace (c : Char) (h : c.isAlpha = true) : c.isWhitespace = false := by
  cases hw : c.isWhitespace
  · rfl
  · exfalso
    have hc : ((c = ' ' ∨ c = '\t') ∨ c = '\x0d') ∨ c = '\n' := by
      simpa [Char.isWhitespace] using hw
    rcases hc with ((rfl | rfl) | rfl) | rfl <;> exact absurd h (by decide)

lemma alpha_ne_lparen (c : Char) (h : c.isAlpha = true) : ¬(c = '(') := by
  intro hc
  subst hc
  exact absurd h (by decide)

lemma alpha_ne_rparen (c : Char) (h : c.isAlpha = true) : ¬(c = ')') := by
  intro hc
  subst hc
  exact absurd h (by decide)

lemma tokenizeLoop_alpha_run :
    ∀ (fuel : Nat) (s : List Char), s.length < fuel →
    (∀ c ∈ s, c.isAlpha = true) → keywordFree s = true →
    tokenizeLoop fuel s = .ok (s.map (fun c => operandToken (.str c.toString))) := by
  intro fuel
  induction fuel with
  | zero => intro s hlen _ _; exact absurd hlen (by omega)
  | succ fuel ih =>
    intro s hlen halpha hfree
    match s with
    | [] => rfl
    | c :: rest =>
      have hca : c.isAlpha = true := halpha c (List.mem_cons_self c rest)
      have hws : c.isWhitespace = false := alpha_not_whitespace c hca
      have hlp : ¬(c = '(') := alpha_ne_lparen c hca
      have hrp : ¬(c = ')') := alpha_ne_rparen c hca
      rw [keywordFree, Bool.and_eq_true] at hfree
      obtain ⟨hhead, htail⟩ := hfree
      simp only [keywords, List.all_cons, List.all_nil, Bool.and_eq_true,
        Bool.not_eq_true', and_true] at hhead
      obtain ⟨h1, h2, h3, h4, h5, h6, h7, h8⟩ := hhead
      simp only [tokenizeLoop, hws, h1, h2, h3, h4, h5, h6, h7, h8, hca,
        Bool.false_eq_true, if_false, if_neg hlp, if_neg hrp, if_true]
      rw [ih rest (by simpa using Nat.lt_of_succ_lt_succ (by simpa using hlen))
        (fun d hd => halpha d (List.mem_cons_of_mem c hd)) htail]
      rfl

/-- C8 amended: keyword matching is purely positional prefix matching with
no identifier boundary detection, so a maximal run of alphabetic
characters in the upper-cased input in which **no position** starts an
occurrence of `TRUE`, `FALSE` or an operator keyword is lexed one
character at a time as independent single-letter variables (`AB` lexes as
the two variables `A`, `B`); but a keyword occurring inside a run is still
recognized there, so a run merely differing from every keyword as a whole
(such as `ANOT`) is not split into single letters. -/
theorem c8_amended_single_letter_runs (s : String)
    (halpha : ∀ c ∈ s.toList.map Char.toUpper, c.isAlpha = true)
    (hfree : keywordFree (s.toList.map Char.toUpper) = true) :
    tokenizeExpression s =
      .ok ((s.toList.map Char.toUpper).map (fun c => operandToken (.str c.toString))) :=
  tokenizeLoop_alpha_run ((s.toList.map Char.toUpper).length + 1) (s.toList.map Char.toUpper)
    (Nat.lt_succ_self _) halpha hfree

/-- Witness for C8's amended theorem at the input `"AB"` of the claim. -/
theorem c8_amended_single_letter_runs_witness :
    tokenizeExpression "AB" =
      .ok [operandToken (.str "A"), operandToken (.str "B")] :=
  c8_amended_single_letter_runs "AB" (by decide) (by decide)

/-! ## Truth-table enumeration (C3) -/

/-- The expected row for counter value `i` in standard truth-table layout:
bit `n-1-j` of `i` in column `j`, so the first column (first variable) is
the most significant bit and varies slowest as `i` counts up. -/
def msbRow (n i : Nat) : List Nat :=
  (List.range n).map (fun j => (i >>> (n - 1 - j)) &&& 1)

/-- The inner list of `generate_truth_combinations` before the reversal:
bit `j` of `i` at index `j` (least significant first). -/
def lsbRow (n i : Nat) : List Nat :=
  (List.range n).map (fun j => (i >>> j) &&& 1)

lemma generateTruthCombinations_eq (n : Nat) :
    generateTruthCombinations n = (List.range (2 ^ n)).map (fun i => (lsbRow n i).reverse) := rfl

lemma lsbRow_reverse (n i : Nat) : (lsbRow n i).reverse = msbRow n i := by
  apply List.ext_getElem
  · simp [lsbRow, msbRow]
  · intro k h1 h2
    rw [List.getElem_reverse]
    simp only [lsbRow, msbRow, List.getElem_map, List.getElem_range]
    congr 2
    simp only [lsbRow, List.length_reverse, List.length_map, List.length_range] at h1 h2 ⊢

lemma length_generateTruthCombinations (n : Nat) :
    (generateTruthCombinations n).length = 2 ^ n := by
  simp [generateTruthCombinations]

lemma getD_generateTruthCombinations (n i : Nat) (h : i < 2 ^ n) :
    (generateTruthCombinations n).getD i [] = msbRow n i := by
  rw [generateTruthCombinations_eq]
  have hlen : i < ((List.range (2 ^ n)).map (fun k => (lsbRow n k).reverse)).length := by
    simpa using h
  rw [List.getD_eq_getElem?_getD, List.getElem?_eq_getElem hlen]
  simp only [List.getElem_map, List.getElem_range, Option.getD_some]
  exact lsbRow_reverse n i

lemma lsbRow_inj (n : Nat) :
    ∀ i ∈ List.range (2 ^ n), ∀ j ∈ List.range (2 ^ n),
    (lsbRow n i).reverse = (lsbRow n j).reverse → i = j := by
  intro i hi j hj hrev
  rw [List.mem_range] at hi hj
  have hlsb : lsbRow n i = lsbRow n j := by
    have := congrArg List.reverse hrev
    simpa using this
  have hbit : ∀ k, k < n → (i >>> k) &&& 1 = (j >>> k) &&& 1 := by
    intro k hk
    have h1 : (lsbRow n i).getD k 0 = (lsbRow n j).getD k 0 := by rw [hlsb]
    have hk1 : k < (List.range n).length := by simpa using hk
    simpa only [lsbRow, List.getD_eq_getElem?_getD, List.getElem?_map,
      List.getElem?_eq_getElem hk1, List.getElem_range, Option.map_some',
      Option.getD_some] using h1
  apply Nat.eq_of_testBit_eq
  intro k
  by_cases hk : k < n
  · have := hbit k hk
    simp only [Nat.and_one_is_mod, Nat.shiftRight_eq_div_pow] at this
    simp [Nat.testBit_to_div_mod, this]
  · push_neg at hk
    have hi2 : i < 2 ^ k := lt_of_lt_of_le hi (Nat.pow_le_pow_right (by omega) hk)
    have hj2 : j < 2 ^ k := lt_of_lt_of_le hj (Nat.pow_le_pow_right (by omega) hk)
    rw [Nat.testBit_eq_false_of_lt hi2, Nat.testBit_eq_false_of_lt hj2]

lemma nodup_generateTruthCombinations (n : Nat) :
    (generateTruthCombinations n).Nodup := by
  rw [generateTruthCombinations_eq]
  exact List.Nodup.map_on (lsbRow_inj n) (List.nodup_range _)

/-- The counter value encoded by a least-significant-bit-first 0/1 list. -/
def bitsVal : List Nat → Nat
  | [] => 0
  | b :: rest => b + 2 * bitsVal rest

lemma bitsVal_lt (w : List Nat) (h : ∀ x ∈ w, x = 0 ∨ x = 1) :
    bitsVal w < 2 ^ w.length := by
  induction w with
  | nil => simp [bitsVal]
  | cons b rest ih =>
    have hb : b = 0 ∨ b = 1 := h b (List.mem_cons_self b rest)
    have ht := ih (fun x hx => h x (List.mem_cons_of_mem b hx))
    have h2 : 2 ^ (rest.length + 1) = 2 * 2 ^ rest.length := by rw [pow_succ]; ring
    simp only [bitsVal, List.length_cons, h2]
    rcases hb with rfl | rfl <;> omega

lemma lsbRow_succ (n i : Nat) : lsbRow (n + 1) i = (i &&& 1) :: lsbRow n (i / 2) := by
  simp only [lsbRow, List.range_succ_eq_map, List.map_cons, List.map_map]
  refine congrArg₂ _ (by rw [Nat.shiftRight_zero]) ?_
  apply List.map_congr_left
  intro j _
  simp only [Function.comp_apply]
  congr 1
  have : Nat.succ j = 1 + j := by omega
  rw [this, Nat.shiftRight_add]
  congr 1

lemma lsbRow_bitsVal (w : List Nat) (h : ∀ x ∈ w, x = 0 ∨ x = 1) :
    lsbRow w.length (bitsVal w) = w := by
  induction w with
  | nil => rfl
  | cons b rest ih =>
    have hb : b = 0 ∨ b = 1 := h b (List.mem_cons_self b rest)
    have ht := ih (fun x hx => h x (List.mem_cons_of_mem b hx))
    show lsbRow (rest.length + 1) (bitsVal (b :: rest)) = b :: rest
    rw [lsbRow_succ]
    have hv : bitsVal (b :: rest) = b + 2 * bitsVal rest := rfl
    have hand : (b + 2 * bitsVal rest) &&& 1 = b := by
      rw [Nat.and_one_is_mod]
      rcases hb with rfl | rfl <;> omega
    have hdiv : (b + 2 * bitsVal rest) / 2 = bitsVal rest := by
      rcases hb with rfl | rfl <;> omega
    rw [hv, hand, hdiv, ht]

lemma mem_generateTruthCombinations (n : Nat) (v : List Nat) (hlen : v.length = n)
    (hbits : ∀ x ∈ v, x = 0 ∨ x = 1) : v ∈ generateTruthCombinations n := by
  rw [generateTruthCombinations_eq]
  apply List.mem_map.mpr
  have hrevbits : ∀ x ∈ v.reverse, x = 0 ∨ x = 1 :=
    fun x hx => hbits x (List.mem_reverse.mp hx)
  refine ⟨bitsVal v.reverse, ?_, ?_⟩
  · rw [List.mem_range]
    have := bitsVal_lt v.reverse hrevbits
    rwa [List.length_reverse, hlen] at this
  · have h2 := lsbRow_bitsVal v.reverse hrevbits
    rw [List.length_reverse, hlen] at h2
    rw [h2, List.reverse_reverse]

lemma mapM_except_ok {α β : Type} (f : α → Except EvalErr β) (dA : α) (dB : β) :
    ∀ (l : List α) (ys : List β), l.mapM f = .ok ys →
    ys.length = l.length ∧ ∀ i, i < l.length → f (l.getD i dA) = .ok (ys.getD i dB) := by
  intro l
  induction l with
  | nil =>
    intro ys h
    rw [List.mapM_nil] at h
    have hys : ys = [] := by
      have h' : (Except.ok [] : Except EvalErr (List β)) = .ok ys := h
      cases h'
      rfl
    subst hys
    exact ⟨rfl, fun i hi => absurd hi (by simp)⟩
  | cons a t ih =>
    intro ys h
    rw [List.mapM_cons] at h
    cases hfa : f a with
    | error e =>
      rw [hfa] at h
      simp only [Bind.bind, Except.bind] at h
      cases h
    | ok b =>
      rw [hfa] at h
      simp only [Bind.bind, Except.bind] at h
      cases hmt : t.mapM f with
      | error e =>
        rw [hmt] at h
        cases h
      | ok bs =>
        rw [hmt] at h
        simp only [Pure.pure, Except.pure] at h
        have hys : ys = b :: bs := by cases h; rfl
        subst hys
        obtain ⟨hl, hp⟩ := ih bs hmt
        refine ⟨by simp [hl], ?_⟩
        intro i hi
        cases i with
        | zero => simpa using hfa
        | succ i' =>
          simp only [List.getD_cons_succ]
          exact hp i' (by simpa using hi)

/-- C3: for `n` variables the enumerator produces exactly `2^n` rows, one
per distinct assignment (no duplicates, and every 0/1 vector of length `n`
occurs), in ascending binary-counter order with the first variable in the
ordering as the most significant (slowest-varying) bit — row `i` is the
`n`-bit big-endian representation of `i`; and each row of the table is its
combination followed by the evaluator's result for that assignment
rendered as `1` or `0`. -/
theorem c3_truth_table_enumeration :
    (∀ n : Nat, (generateTruthCombinations n).length = 2 ^ n) ∧
    (∀ n : Nat, (generateTruthCombinations n).Nodup) ∧
    (∀ (n : Nat) (v : List Nat), v.length = n → (∀ x ∈ v, x = 0 ∨ x = 1) →
      v ∈ generateTruthCombinations n) ∧
    (∀ n i : Nat, i < 2 ^ n → (generateTruthCombinations n).getD i [] = msbRow n i) ∧
    (∀ (ast : ASTNode) (vars : List String) (rows : List (List Nat)),
      generateTruthTable ast vars = .ok rows →
      rows.length = 2 ^ vars.length ∧
      ∀ i, i < 2 ^ vars.length →
        ∃ result, evaluateTree ast (List.zip vars
            (((generateTruthCombinations vars.length).getD i []).map (fun val => val ≠ 0))) =
            .ok result ∧
          rows.getD i [] =
            (generateTruthCombinations vars.length).getD i [] ++
              [if result then 1 else 0]) := by
  refine ⟨length_generateTruthCombinations, nodup_generateTruthCombinations,
    mem_generateTruthCombinations, getD_generateTruthCombinations, ?_⟩
  intro ast vars rows h
  simp only [generateTruthTable] at h
  obtain ⟨hlen, hp⟩ := mapM_except_ok _ ([] : List Nat) ([] : List Nat) _ rows h
  constructor
  · rw [hlen, length_generateTruthCombinations]
  · intro i hi
    have hi' : i < (generateTruthCombinations vars.length).length := by
      rwa [length_generateTruthCombinations]
    have hrow := hp i hi'
    cases hev : evaluateTree ast (List.zip vars
        (((generateTruthCombinations vars.length).getD i []).map (fun val => val ≠ 0))) with
    | error e =>
      exfalso
      simp only [hev, Bind.bind, Except.bind] at hrow
      cases hrow
    | ok result =>
      refine ⟨result, rfl, ?_⟩
      simp only [hev, Bind.bind, Except.bind, Pure.pure, Except.pure,
        Except.ok.injEq] at hrow
      exact hrow.symm

/-! ## The lexer's token invariant and the parser's shape invariant (C9, C10) -/

/-- The invariant of every token the lexer emits: operand tokens hold a
boolean or a single-character variable name; operator tokens are exactly
the six keyword tokens with their table precedence and associativity;
parenthesis tokens hold `"("` or `")"`. -/
def goodToken (tok : Token) : Bool :=
  match tok.tokenType with
  | .operand =>
    match tok.value with
    | .bool _ => true
    | .str s => s.length == 1
  | .operator =>
    (tok == opToken "NOT" 1) || (tok == opToken "AND" 2) || (tok == opToken "XOR" 3) ||
    (tok == opToken "OR" 4) || (tok == opToken "IMP" 5) || (tok == opToken "IFF" 6)
  | .parenthesis => (tok.value == .str "(") || (tok.value == .str ")")

lemma map_cons_ok {tk : Token} {r : Except LexErr (List Token)} {ts : List Token}
    (h : r.map (tk :: ·) = .ok ts) : ∃ ts', r = .ok ts' ∧ ts = tk :: ts' := by
  cases r with
  | error e => cases h
  | ok l =>
    refine ⟨l, rfl, ?_⟩
    cases h
    rfl

lemma good_step (fuel : Nat) (X : List Char) (tk : Token) (ts : List Token) (tok : Token)
    (ih : ∀ s ts, tokenizeLoop fuel s = .ok ts → ∀ t ∈ ts, goodToken t = true)
    (h : (tokenizeLoop fuel X).map (tk :: ·) = .ok ts)
    (htok : tok ∈ ts) (htk : goodToken tk = true) : goodToken tok = true := by
  obtain ⟨ts', hrec, hts⟩ := map_cons_ok h
  subst hts
  rcases List.mem_cons.mp htok with rfl | hmem
  · exact htk
  · exact ih _ _ hrec tok hmem

/-- Every token produced by the scanning loop satisfies `goodToken`. -/
lemma tokenizeLoop_good : ∀ (fuel : Nat) (s : List Char) (ts : List Token),
    tokenizeLoop fuel s = .ok ts → ∀ tok ∈ ts, goodToken tok = true := by
  intro fuel
  induction fuel with
  | zero => intro s ts h; cases h
  | succ fuel ih =>
    intro s ts h tok htok
    match s with
    | [] =>
      cases h
      cases htok
    | c :: rest =>
      rw [tokenizeLoop.eq_3] at h
      by_cases h1 : c.isWhitespace = true
      · rw [if_pos h1] at h
        exact ih _ _ h tok htok
      rw [if_neg h1] at h
      by_cases h2 : c = '('
      · rw [if_pos h2] at h
        exact good_step fuel _ _ _ tok ih h htok rfl
      rw [if_neg h2] at h
      by_cases h3 : c = ')'
      · rw [if_pos h3] at h
        exact good_step fuel _ _ _ tok ih h htok rfl
      rw [if_neg h3] at h
      by_cases h4 : kwAt "TRUE" (c :: rest) = true
      · rw [if_pos h4] at h
        exact good_step fuel _ _ _ tok ih h htok rfl
      rw [if_neg h4] at h
      by_cases h5 : kwAt "FALSE" (c :: rest) = true
      · rw [if_pos h5] at h
        exact good_step fuel _ _ _ tok ih h htok rfl
      rw [if_neg h5] at h
      by_cases h6 : kwAt "NOT" (c :: rest) = true
      · rw [if_pos h6] at h
        exact good_step fuel _ _ _ tok ih h htok rfl
      rw [if_neg h6] at h
      by_cases h7 : kwAt "AND" (c :: rest) = true
      · rw [if_pos h7] at h
        exact good_step fuel _ _ _ tok ih h htok rfl
      rw [if_neg h7] at h
      by_cases h8 : kwAt "XOR" (c :: rest) = true
      · rw [if_pos h8] at h
        exact good_step fuel _ _ _ tok ih h htok rfl
      rw [if_neg h8] at h
      by_cases h9 : kwAt "OR" (c :: rest) = true
      · rw [if_pos h9] at h
        exact good_step fuel _ _ _ tok ih h htok rfl
      rw [if_neg h9] at h
      by_cases h10 : kwAt "IMP" (c :: rest) = true
      · rw [if_pos h10] at h
        exact good_step fuel _ _ _ tok ih h htok rfl
      rw [if_neg h10] at h
      by_cases h11 : kwAt "IFF" (c :: rest) = true
      · rw [if_pos h11] at h
        exact good_step fuel _ _ _ tok ih h htok rfl
      rw [if_neg h11] at h
      by_cases h12 : c.isAlpha = true
      · rw [if_pos h12] at h
        exact good_step fuel _ _ _ tok ih h htok rfl
      rw [if_neg h12] at h
      cases h

lemma parse_isSuffix : ∀ (fuel : Nat),
    (∀ t r, parsePrimary fuel t = some r → r.2 <:+ t) ∧
    (∀ p t r, parseOperator fuel p t = some r → r.2 <:+ t) ∧
    (∀ p node t r, parseLoop fuel p node t = some r → r.2 <:+ t) := by
  intro fuel
  induction fuel with
  | zero =>
    refine ⟨?_, ?_, ?_⟩
    · intro t r h; rw [parsePrimary.eq_1] at h; cases h
    · intro p t r h; rw [parseOperator.eq_1] at h; cases h
    · intro p node t r h; rw [parseLoop.eq_1] at h; cases h
  | succ fuel ih =>
    obtain ⟨ihP, ihO, ihL⟩ := ih
    refine ⟨?_, ?_, ?_⟩
    · intro t r h
      match t with
      | [] => rw [parsePrimary.eq_2] at h; cases h
      | ⟨.operand, v, prec, assoc⟩ :: rest =>
        rw [parsePrimary.eq_3] at h
        cases h
        exact List.suffix_cons _ _
      | ⟨.parenthesis, v, prec, assoc⟩ :: rest =>
        rw [parsePrimary.eq_4] at h
        by_cases hv : v = .str "("
        · rw [if_pos hv] at h
          cases hop : parseOperator fuel 0 rest with
          | none =>
            rw [hop] at h
            have h1 : (none : Option (ASTNode × List Token)) = some r := h
            cases h1
          | some pr =>
            obtain ⟨node, rest'⟩ := pr
            rw [hop] at h
            match rest', hop, h with
            | [], hop, h =>
              have h1 : some (node, ([] : List Token)) = some r := h
              cases h1
              exact List.nil_suffix.trans (List.suffix_cons _ _)
            | tok2 :: rest2, hop, h =>
              have hsub : tok2 :: rest2 <:+ rest := ihO 0 rest (node, tok2 :: rest2) hop
              have h1 : (if tok2.value = .str ")" then some (node, rest2)
                  else some (node, tok2 :: rest2)) = some r := h
              by_cases hv2 : tok2.value = .str ")"
              · rw [if_pos hv2] at h1
                cases h1
                exact (((List.suffix_cons tok2 rest2).trans hsub).trans
                  (List.suffix_cons _ _))
              · rw [if_neg hv2] at h1
                cases h1
                exact hsub.trans (List.suffix_cons _ _)
        · rw [if_neg hv] at h
          cases h
      | ⟨.operator, v, prec, assoc⟩ :: rest =>
        rw [parsePrimary.eq_5] at h
        by_cases hv : v = .str "NOT"
        · rw [if_pos hv] at h
          cases hprim : parsePrimary fuel rest with
          | none =>
            rw [hprim] at h
            have h1 : (none : Option (ASTNode × List Token)) = some r := h
            cases h1
          | some pr =>
            obtain ⟨operand, rest'⟩ := pr
            rw [hprim] at h
            have h1 : some (ASTNode.unary v operand, rest') = some r := h
            cases h1
            exact (ihP rest (operand, rest') hprim).trans (List.suffix_cons _ _)
        · rw [if_neg hv] at h
          cases h
    · intro p t r h
      rw [parseOperator.eq_2] at h
      cases hprim : parsePrimary fuel t with
      | none =>
        rw [hprim] at h
        have h1 : (none : Option (ASTNode × List Token)) = some r := h
        cases h1
      | some pr =>
        obtain ⟨node, rest⟩ := pr
        rw [hprim] at h
        have h1 : parseLoop fuel p node rest = some r := h
        exact (ihL p node rest r h1).trans (ihP t (node, rest) hprim)
    · intro p node t r h
      match t with
      | [] =>
        rw [parseLoop.eq_2] at h
        cases h
        exact List.nil_suffix
      | tok :: rest =>
        rw [parseLoop.eq_3] at h
        by_cases hc : tok.tokenType = .operator ∧ tok.precedence ≥ p
        · rw [if_pos hc] at h
          have h0 : (match parseOperator fuel
                (if tok.associativity = "left" then tok.precedence + 1 else tok.precedence)
                rest with
              | none => none
              | some (right, rest1) =>
                parseLoop fuel p (.binary tok.value node right) rest1) = some r := h
          cases hop : parseOperator fuel
              (if tok.associativity = "left" then tok.precedence + 1 else tok.precedence)
              rest with
          | none =>
            rw [hop] at h0
            have h1 : (none : Option (ASTNode × List Token)) = some r := h0
            cases h1
          | some pr =>
            obtain ⟨right, rest1⟩ := pr
            rw [hop] at h0
            have h1 : parseLoop fuel p (.binary tok.value node right) rest1 = some r := h0
            have h2 : rest1 <:+ rest := ihO _ rest (right, rest1) hop
            exact ((ihL p _ rest1 r h1).trans h2).trans (List.suffix_cons _ _)
        · rw [if_neg hc] at h
          cases h
          exact List.suffix_refl _

/-- The three legal parser-output shapes of C10: a leaf whose value is a
boolean constant or a single-character variable name; a unary node with a
left child only, whose value is `"NOT"`; a binary node with both children,
whose value is one of the six operator keywords.  A `right`-only node is
never legal. -/
def isShaped : ASTNode → Bool
  | .leaf v =>
    match v with
    | .bool _ => true
    | .str s => s.length == 1
  | .unary v l => (v == .str "NOT") && isShaped l
  | .binary v l r =>
    (v == .str "NOT" || v == .str "AND" || v == .str "XOR" || v == .str "OR" ||
     v == .str "IMP" || v == .str "IFF") && isShaped l && isShaped r
  | .rightOnly _ _ => false

lemma good_operator_value (v : TValue) (prec : Nat) (assoc : String)
    (hg : goodToken ⟨.operator, v, prec, assoc⟩ = true) :
    v = .str "NOT" ∨ v = .str "AND" ∨ v = .str "XOR" ∨ v = .str "OR" ∨
    v = .str "IMP" ∨ v = .str "IFF" := by
  simp only [goodToken, opToken, Bool.or_eq_true, beq_iff_eq, Token.mk.injEq] at hg
  rcases hg with
    (((((⟨_, hv, _⟩ | ⟨_, hv, _⟩) | ⟨_, hv, _⟩) | ⟨_, hv, _⟩) | ⟨_, hv, _⟩) | ⟨_, hv, _⟩) <;>
    simp [hv]

lemma parse_isShaped : ∀ (fuel : Nat),
    (∀ t r, (∀ tok ∈ t, goodToken tok = true) → parsePrimary fuel t = some r →
      isShaped r.1 = true) ∧
    (∀ p t r, (∀ tok ∈ t, goodToken tok = true) → parseOperator fuel p t = some r →
      isShaped r.1 = true) ∧
    (∀ p node t r, isShaped node = true → (∀ tok ∈ t, goodToken tok = true) →
      parseLoop fuel p node t = some r → isShaped r.1 = true) := by
  intro fuel
  induction fuel with
  | zero =>
    refine ⟨?_, ?_, ?_⟩
    · intro t r _ h; rw [parsePrimary.eq_1] at h; cases h
    · intro p t r _ h; rw [parseOperator.eq_1] at h; cases h
    · intro p node t r _ _ h; rw [parseLoop.eq_1] at h; cases h
  | succ fuel ih =>
    obtain ⟨ihP, ihO, ihL⟩ := ih
    refine ⟨?_, ?_, ?_⟩
    · intro t r hgood h
      match t with
      | [] => rw [parsePrimary.eq_2] at h; cases h
      | ⟨.operand, v, prec, assoc⟩ :: rest =>
        rw [parsePrimary.eq_3] at h
        cases h
        exact hgood _ (List.mem_cons_self _ _)
      | ⟨.parenthesis, v, prec, assoc⟩ :: rest =>
        rw [parsePrimary.eq_4] at h
        by_cases hv : v = .str "("
        · rw [if_pos hv] at h
          cases hop : parseOperator fuel 0 rest with
          | none =>
            rw [hop] at h
            have h1 : (none : Option (ASTNode × List Token)) = some r := h
            cases h1
          | some pr =>
            obtain ⟨node, rest'⟩ := pr
            rw [hop] at h
            have hrest : ∀ tok ∈ rest, goodToken tok = true :=
              fun tok htok => hgood tok (List.mem_cons_of_mem _ htok)
            have hsh : isShaped node = true := ihO 0 rest (node, rest') hrest hop
            match rest', hop, h with
            | [], hop, h =>
              have h1 : some (node, ([] : List Token)) = some r := h
              cases h1
              exact hsh
            | tok2 :: rest2, hop, h =>
              have h1 : (if tok2.value = .str ")" then some (node, rest2)
                  else some (node, tok2 :: rest2)) = some r := h
              by_cases hv2 : tok2.value = .str ")"
              · rw [if_pos hv2] at h1
                cases h1
                exact hsh
              · rw [if_neg hv2] at h1
                cases h1
                exact hsh
        · rw [if_neg hv] at h
          cases h
      | ⟨.operator, v, prec, assoc⟩ :: rest =>
        rw [parsePrimary.eq_5] at h
        by_cases hv : v = .str "NOT"
        · rw [if_pos hv] at h
          cases hprim : parsePrimary fuel rest with
          | none =>
            rw [hprim] at h
            have h1 : (none : Option (ASTNode × List Token)) = some r := h
            cases h1
          | some pr =>
            obtain ⟨operand, rest'⟩ := pr
            rw [hprim] at h
            have h1 : some (ASTNode.unary v operand, rest') = some r := h
            cases h1
            have hop : isShaped operand = true :=
              ihP rest (operand, rest')
                (fun tok htok => hgood tok (List.mem_cons_of_mem _ htok)) hprim
            show isShaped (.unary v operand) = true
            rw [hv]
            simp [isShaped, hop]
        · rw [if_neg hv] at h
          cases h
    · intro p t r hgood h
      rw [parseOperator.eq_2] at h
      cases hprim : parsePrimary fuel t with
      | none =>
        rw [hprim] at h
        have h1 : (none : Option (ASTNode × List Token)) = some r := h
        cases h1
      | some pr =>
        obtain ⟨node, rest⟩ := pr
        rw [hprim] at h
        have h1 : parseLoop fuel p node rest = some r := h
        have hsh : isShaped node = true := ihP t (node, rest) hgood hprim
        have hrest : ∀ tok ∈ rest, goodToken tok = true := fun tok htok =>
          hgood tok (((parse_isSuffix fuel).1 t (node, rest) hprim).subset htok)
        exact ihL p node rest r hsh hrest h1
    · intro p node t r hnode hgood h
      match t with
      | [] =>
        rw [parseLoop.eq_2] at h
        cases h
        exact hnode
      | tok :: rest =>
        rw [parseLoop.eq_3] at h
        by_cases hc : tok.tokenType = .operator ∧ tok.precedence ≥ p
        · rw [if_pos hc] at h
          have h0 : (match parseOperator fuel
                (if tok.associativity = "left" then tok.precedence + 1 else tok.precedence)
                rest with
              | none => none
              | some (right, rest1) =>
                parseLoop fuel p (.binary tok.value node right) rest1) = some r := h
          cases hop : parseOperator fuel
              (if tok.associativity = "left" then tok.precedence + 1 else tok.precedence)
              rest with
          | none =>
            rw [hop] at h0
            have h1 : (none : Option (ASTNode × List Token)) = some r := h0
            cases h1
          | some pr =>
            obtain ⟨right, rest1⟩ := pr
            rw [hop] at h0
            have h1 : parseLoop fuel p (.binary tok.value node right) rest1 = some r := h0
            have hrest : ∀ tk ∈ rest, goodToken tk = true :=
              fun tk htk => hgood tk (List.mem_cons_of_mem _ htk)
            have hright : isShaped right = true :=
              ihO _ rest (right, rest1) hrest hop
            have hrest1 : ∀ tk ∈ rest1, goodToken tk = true := fun tk htk =>
              hrest tk (((parse_isSuffix fuel).2.1 _ rest (right, rest1) hop).subset htk)
            have hbin : isShaped (.binary tok.value node right) = true := by
              obtain ⟨tt, v, prec, assoc⟩ := tok
              have htt : tt = .operator := hc.1
              subst htt
              have hval := good_operator_value v prec assoc
                (hgood _ (List.mem_cons_self _ _))
              show ((v == .str "NOT" || v == .str "AND" || v == .str "XOR" ||
                  v == .str "OR" || v == .str "IMP" || v == .str "IFF") &&
                  isShaped node && isShaped right) = true
              rcases hval with hv | hv | hv | hv | hv | hv <;>
                simp [hv, hnode, hright]
            exact ihL p _ rest1 r hbin hrest1 h1
        · rw [if_neg hc] at h
          cases h
          exact hnode

/-- C10: every AST node the parser returns on lexed input has exactly one
of three shapes — a childless leaf holding a boolean constant or a
single-character variable name, a `left`-only unary node holding `"NOT"`,
or a two-child binary node holding one of the six operator keywords — and
in particular no node ever has a `right` child without a `left` child, so
the evaluator's three-way dispatch on child presence is exhaustive. -/
theorem c10_ast_shape_invariant (s : String) (ts : List Token) (ast : ASTNode)
    (rest : List Token) (hlex : tokenizeExpression s = .ok ts)
    (hparse : buildAst ts = some (ast, rest)) : isShaped ast = true := by
  have hgood : ∀ tok ∈ ts, goodToken tok = true := fun tok htok =>
    tokenizeLoop_good _ _ ts hlex tok htok
  exact (parse_isShaped _).2.1 0 ts (ast, rest) hgood hparse

/-- Witness for C10 on the parse of `"NOT A AND B"`. -/
theorem c10_ast_shape_invariant_witness :
    isShaped (.binary (.str "AND") (.unary (.str "NOT") (.leaf (.str "A")))
      (.leaf (.str "B"))) = true :=
  c10_ast_shape_invariant "NOT A AND B"
    [opToken "NOT" 1, operandToken (.str "A"), opToken "AND" 2, operandToken (.str "B")]
    _ [] rfl rfl

/-- Every internal node's value is a key present in the operator table. -/
def opsKnown : ASTNode → Bool
  | .leaf _ => true
  | .unary v l => (opLookup v).isSome && opsKnown l
  | .binary v l r => (opLookup v).isSome && opsKnown l && opsKnown r
  | .rightOnly v r => (opLookup v).isSome && opsKnown r

lemma isShaped_opsKnown : ∀ (t : ASTNode), isShaped t = true → opsKnown t = true := by
  intro t
  induction t with
  | leaf v => intro _; rfl
  | unary v l ihl =>
    intro hsh
    simp only [isShaped, Bool.and_eq_true, beq_iff_eq] at hsh
    obtain ⟨hv, hl⟩ := hsh
    subst hv
    simp [opsKnown, ihl hl, opLookup, operators]
  | binary v l r ihl ihr =>
    intro hsh
    simp only [isShaped, Bool.and_eq_true, Bool.or_eq_true, beq_iff_eq] at hsh
    obtain ⟨⟨hv, hl⟩, hr⟩ := hsh
    rcases hv with ((((hv | hv) | hv) | hv) | hv) | hv <;> subst hv <;>
      simp [opsKnown, ihl hl, ihr hr, opLookup, operators]
  | rightOnly v r _ =>
    intro hsh
    exact absurd hsh (by simp [isShaped])

lemma evaluateTree_no_missingOp : ∀ (t : ASTNode), isShaped t = true →
    ∀ (env : List (String × Bool)) (name : TValue),
    evaluateTree t env ≠ .error (.missingOp name) := by
  intro t
  induction t with
  | leaf v =>
    intro _ env name h
    cases v <;> simp [evaluateTree] at h
  | unary v l ihl =>
    intro hsh env name h
    simp only [isShaped, Bool.and_eq_true, beq_iff_eq] at hsh
    obtain ⟨hv, hl⟩ := hsh
    subst hv
    cases hev : evaluateTree l env with
    | error e =>
      simp only [evaluateTree, hev, Bind.bind, Except.bind, Except.error.injEq] at h
      subst h
      exact ihl hl env name hev
    | ok a =>
      simp only [evaluateTree, hev, Bind.bind, Except.bind] at h
      simp [opLookup, operators] at h
  | binary v l r ihl ihr =>
    intro hsh env name h
    simp only [isShaped, Bool.and_eq_true, Bool.or_eq_true, beq_iff_eq] at hsh
    obtain ⟨⟨hv, hl⟩, hr⟩ := hsh
    cases hevl : evaluateTree l env with
    | error e =>
      simp only [evaluateTree, hevl, Bind.bind, Except.bind, Except.error.injEq] at h
      subst h
      exact ihl hl env name hevl
    | ok a =>
      cases hevr : evaluateTree r env with
      | error e =>
        simp only [evaluateTree, hevl, hevr, Bind.bind, Except.bind,
          Except.error.injEq] at h
        subst h
        exact ihr hr env name hevr
      | ok b =>
        simp only [evaluateTree, hevl, hevr, Bind.bind, Except.bind] at h
        rcases hv with ((((hv | hv) | hv) | hv) | hv) | hv <;> subst hv <;>
          simp [opLookup, operators] at h
  | rightOnly v r _ =>
    intro hsh
    exact absurd hsh (by simp [isShaped])

/-- C9: on any AST the parser builds from lexed input, every node with at
least one child carries a value that is a key of the operator table, and
evaluation therefore never fails with the unknown-operator error
(`KeyError` on the table, the spec's `EvalError`): the defensive
missing-operator branch of the evaluator is unreachable on parser
output. -/
theorem c9_no_missing_operator (s : String) (ts : List Token) (ast : ASTNode)
    (rest : List Token) (hlex : tokenizeExpression s = .ok ts)
    (hparse : buildAst ts = some (ast, rest)) :
    opsKnown ast = true ∧
    ∀ (env : List (String × Bool)) (name : TValue),
      evaluateTree ast env ≠ .error (.missingOp name) := by
  have hgood : ∀ tok ∈ ts, goodToken tok = true := fun tok htok =>
    tokenizeLoop_good _ _ ts hlex tok htok
  have hsh : isShaped ast = true := (parse_isShaped _).2.1 0 ts (ast, rest) hgood hparse
  exact ⟨isShaped_opsKnown ast hsh, evaluateTree_no_missingOp ast hsh⟩

/-- Witness for C9 on the parse of `"NOT A AND B"` under the empty
assignment. -/
theorem c9_no_missing_operator_witness :
    opsKnown (.binary (.str "AND") (.unary (.str "NOT") (.leaf (.str "A")))
      (.leaf (.str "B"))) = true ∧
    evaluateTree (.binary (.str "AND") (.unary (.str "NOT") (.leaf (.str "A")))
      (.leaf (.str "B"))) [] ≠ .error (.missingOp (.str "AND")) :=
  ⟨(c9_no_missing_operator "NOT A AND B"
      [opToken "NOT" 1, operandToken (.str "A"), opToken "AND" 2, operandToken (.str "B")]
      _ [] rfl rfl).1,
   (c9_no_missing_operator "NOT A AND B"
      [opToken "NOT" 1, operandToken (.str "A"), opToken "AND" 2, operandToken (.str "B")]
      _ [] rfl rfl).2 [] (.str "AND")⟩

/-! ## Standard boolean semantics of variable-free trees (C5) -/

/-- Modelled from the spec: the standard boolean-logic truth value of a
variable-free formula tree (§8: "NOT flips; AND/OR/XOR/IMP/IFF follow
their standard truth tables"; IMP is material implication, IFF is
equivalence).  Defined only on standard-shape constant trees: `none` marks
a tree that has no standard reading (a variable leaf, a non-prefix NOT, a
right-only node, an unknown operator). -/
def stdSem : ASTNode → Option Bool
  | .leaf (.bool b) => some b
  | .leaf (.str _) => none
  | .unary v l => if v = .str "NOT" then (stdSem l).map (fun a => !a) else none
  | .binary v l r =>
    match stdSem l, stdSem r with
    | some a, some b =>
      if v = .str "AND" then some (a && b)
      else if v = .str "XOR" then some (a != b)
      else if v = .str "OR" then some (a || b)
      else if v = .str "IMP" then some (!a || b)
      else if v = .str "IFF" then some (a == b)
      else none
    | _, _ => none
  | .rightOnly _ _ => none

/-- The operator table and the evaluator are standard at tree level: on
every variable-free tree built from `TRUE`/`FALSE` leaves and the six
operators in their standard arities (the trees on which `stdSem` is
defined), the evaluator returns exactly the standard truth value, under
any assignment — NOT flips its operand and AND, OR, XOR, IMP and IFF
follow their standard truth tables.  The input-level failure of C5 is
therefore entirely the parser's inverted precedence (see
`c1_parse_at_failing_input` and `c5_pipeline_at_failing_input`), not the
evaluation of any operator. -/
theorem evaluateTree_stdSem (t : ASTNode) (env : List (String × Bool)) (b : Bool)
    (h : stdSem t = some b) : evaluateTree t env = .ok b := by
  induction t generalizing b with
  | leaf v =>
    cases v with
    | bool b0 =>
      have hb : b0 = b := by
        have h' : some b0 = some b := h
        cases h'
        rfl
      subst hb
      rfl
    | str s => exact absurd h (by simp [stdSem])
  | unary v l ihl =>
    by_cases hv : v = .str "NOT"
    · subst hv
      have h' : (stdSem l).map (fun a => !a) = some b := h
      cases hl : stdSem l with
      | none => rw [hl] at h'; cases h'
      | some a =>
        rw [hl] at h'
        have h2 : some (!a) = some b := h'
        have hb : (!a) = b := by cases h2; rfl
        subst hb
        have hev := ihl a hl
        simp [evaluateTree, hev, Bind.bind, Except.bind, opLookup, operators]
    · rw [stdSem, if_neg hv] at h
      cases h
  | binary v l r ihl ihr =>
    rw [stdSem] at h
    cases hl : stdSem l with
    | none => rw [hl] at h; cases h
    | some a =>
      cases hr : stdSem r with
      | none => rw [hl, hr] at h; cases h
      | some b0 =>
        rw [hl, hr] at h
        have h' : (if v = .str "AND" then some (a && b0)
            else if v = .str "XOR" then some (a != b0)
            else if v = .str "OR" then some (a || b0)
            else if v = .str "IMP" then some (!a || b0)
            else if v = .str "IFF" then some (a == b0)
            else none) = some b := h
        have hevl := ihl a hl
        have hevr := ihr b0 hr
        by_cases h1 : v = .str "AND"
        · subst h1
          rw [if_pos rfl] at h'
          have hb : (a && b0) = b := by cases h'; rfl
          subst hb
          simp [evaluateTree, hevl, hevr, Bind.bind, Except.bind, opLookup, operators]
        rw [if_neg h1] at h'
        by_cases h2 : v = .str "XOR"
        · subst h2
          rw [if_pos rfl] at h'
          have hb : (a != b0) = b := by cases h'; rfl
          subst hb
          simp [evaluateTree, hevl, hevr, Bind.bind, Except.bind, opLookup, operators]
        rw [if_neg h2] at h'
        by_cases h3 : v = .str "OR"
        · subst h3
          rw [if_pos rfl] at h'
          have hb : (a || b0) = b := by cases h'; rfl
          subst hb
          simp [evaluateTree, hevl, hevr, Bind.bind, Except.bind, opLookup, operators]
        rw [if_neg h3] at h'
        by_cases h4 : v = .str "IMP"
        · subst h4
          rw [if_pos rfl] at h'
          have hb : (!a || b0) = b := by cases h'; rfl
          subst hb
          simp [evaluateTree, hevl, hevr, Bind.bind, Except.bind, opLookup, operators]
        rw [if_neg h4] at h'
        by_cases h5 : v = .str "IFF"
        · subst h5
          rw [if_pos rfl] at h'
          have hb : (a == b0) = b := by cases h'; rfl
          subst hb
          simp [evaluateTree, hevl, hevr, Bind.bind, Except.bind, opLookup, operators]
        rw [if_neg h5] at h'
        cases h'
  | rightOnly v r _ => exact absurd h (by simp [stdSem])

/-- `evaluateTree_stdSem` at the parse of `"TRUE AND FALSE"` (scenario 4
of the spec): the tree `TRUE AND FALSE` evaluates to `false`. -/
theorem evaluateTree_stdSem_example :
    evaluateTree (.binary (.str "AND") (.leaf (.bool true)) (.leaf (.bool false))) [] =
      .ok false :=
  evaluateTree_stdSem (.binary (.str "AND") (.leaf (.bool true)) (.leaf (.bool false)))
    [] false rfl

/-- C5: the claim says every variable-free input, lexed and parsed,
evaluates to the input's standard boolean-logic truth value.  The
evaluator's truth tables are standard (`evaluateTree_stdSem`), but the
parser's inverted precedence (the C1 slip) breaks the claim at the
input level: `"FALSE AND TRUE OR TRUE"` parses to
`FALSE AND (TRUE OR TRUE)` and evaluates to `false`, while the standard
truth value of that input — `(FALSE AND TRUE) OR TRUE` under
conventional precedence, computed here by `stdSem` on the conventional
grouping — is `true`.  This theorem evaluates the pipeline at that
failing input. -/
theorem c5_pipeline_at_failing_input :
    tokenizeExpression "FALSE AND TRUE OR TRUE" =
      .ok [operandToken (.bool false), opToken "AND" 2, operandToken (.bool true),
           opToken "OR" 4, operandToken (.bool true)] ∧
    buildAst [operandToken (.bool false), opToken "AND" 2, operandToken (.bool true),
           opToken "OR" 4, operandToken (.bool true)] =
      some (.binary (.str "AND") (.leaf (.bool false))
        (.binary (.str "OR") (.leaf (.bool true)) (.leaf (.bool true))), []) ∧
    evaluateTree (.binary (.str "AND") (.leaf (.bool false))
        (.binary (.str "OR") (.leaf (.bool true)) (.leaf (.bool true)))) [] =
      .ok false ∧
    stdSem (.binary (.str "OR")
        (.binary (.str "AND") (.leaf (.bool false)) (.leaf (.bool true)))
        (.leaf (.bool true))) = some true :=
  ⟨rfl, rfl, rfl, rfl⟩

/-! ## Tolerated missing closing parenthesis (C7) -/

lemma parse_mono : ∀ (fuel : Nat),
    (∀ t r, parsePrimary fuel t = some r → parsePrimary (fuel + 1) t = some r) ∧
    (∀ p t r, parseOperator fuel p t = some r → parseOperator (fuel + 1) p t = some r) ∧
    (∀ p node t r, parseLoop fuel p node t = some r → parseLoop (fuel + 1) p node t = some r) := by
  intro fuel
  induction fuel with
  | zero =>
    refine ⟨?_, ?_, ?_⟩
    · intro t r h; rw [parsePrimary.eq_1] at h; cases h
    · intro p t r h; rw [parseOperator.eq_1] at h; cases h
    · intro p node t r h; rw [parseLoop.eq_1] at h; cases h
  | succ fuel ih =>
    obtain ⟨ihP, ihO, ihL⟩ := ih
    refine ⟨?_, ?_, ?_⟩
    · intro t r h
      match t with
      | [] => rw [parsePrimary.eq_2] at h; cases h
      | ⟨.operand, v, prec, assoc⟩ :: rest =>
        rw [parsePrimary.eq_3] at h
        rw [parsePrimary.eq_3]
        exact h
      | ⟨.parenthesis, v, prec, assoc⟩ :: rest =>
        rw [parsePrimary.eq_4] at h
        rw [parsePrimary.eq_4]
        by_cases hv : v = .str "("
        · rw [if_pos hv] at h
          rw [if_pos hv]
          cases hop : parseOperator fuel 0 rest with
          | none =>
            rw [hop] at h
            have h1 : (none : Option (ASTNode × List Token)) = some r := h
            cases h1
          | some pr =>
            obtain ⟨node, rest'⟩ := pr
            rw [hop] at h
            rw [ihO 0 rest (node, rest') hop]
            exact h
        · rw [if_neg hv] at h
          cases h
      | ⟨.operator, v, prec, assoc⟩ :: rest =>
        rw [parsePrimary.eq_5] at h
        rw [parsePrimary.eq_5]
        by_cases hv : v = .str "NOT"
        · rw [if_pos hv] at h
          rw [if_pos hv]
          cases hprim : parsePrimary fuel rest with
          | none =>
            rw [hprim] at h
            have h1 : (none : Option (ASTNode × List Token)) = some r := h
            cases h1
          | some pr =>
            obtain ⟨operand, rest'⟩ := pr
            rw [hprim] at h
            rw [ihP rest (operand, rest') hprim]
            exact h
        · rw [if_neg hv] at h
          cases h
    · intro p t r h
      rw [parseOperator.eq_2] at h
      rw [parseOperator.eq_2]
      cases hprim : parsePrimary fuel t with
      | none =>
        rw [hprim] at h
        have h1 : (none : Option (ASTNode × List Token)) = some r := h
        cases h1
      | some pr =>
        obtain ⟨node, rest⟩ := pr
        rw [hprim] at h
        have h1 : parseLoop fuel p node rest = some r := h
        rw [ihP t (node, rest) hprim]
        exact ihL p node rest r h1
    · intro p node t r h
      match t with
      | [] =>
        rw [parseLoop.eq_2] at h
        rw [parseLoop.eq_2]
        exact h
      | tok :: rest =>
        rw [parseLoop.eq_3] at h
        rw [parseLoop.eq_3]
        by_cases hc : tok.tokenType = .operator ∧ tok.precedence ≥ p
        · rw [if_pos hc] at h
          rw [if_pos hc]
          have h0 : (match parseOperator fuel
                (if tok.associativity = "left" then tok.precedence + 1 else tok.precedence)
                rest with
              | none => none
              | some (right, rest1) =>
                parseLoop fuel p (.binary tok.value node right) rest1) = some r := h
          cases hop : parseOperator fuel
              (if tok.associativity = "left" then tok.precedence + 1 else tok.precedence)
              rest with
          | none =>
            rw [hop] at h0
            have h1 : (none : Option (ASTNode × List Token)) = some r := h0
            cases h1
          | some pr =>
            obtain ⟨right, rest1⟩ := pr
            rw [hop] at h0
            have h1 : parseLoop fuel p (.binary tok.value node right) rest1 = some r := h0
            show (match parseOperator (fuel + 1)
                (if tok.associativity = "left" then tok.precedence + 1 else tok.precedence)
                rest with
              | none => none
              | some (right, rest1) =>
                parseLoop (fuel + 1) p (.binary tok.value node right) rest1) = some r
            rw [ihO _ rest (right, rest1) hop]
            exact ihL p _ rest1 r h1
        · rw [if_neg hc] at h
          rw [if_neg hc]
          exact h

lemma parseOperator_mono_le (f g : Nat) (hle : f ≤ g) :
    ∀ p t r, parseOperator f p t = some r → parseOperator g p t = some r := by
  induction g with
  | zero =>
    intro p t r h
    have : f = 0 := by omega
    subst this
    exact h
  | succ g ihg =>
    intro p t r h
    by_cases hfg : f = g + 1
    · subst hfg; exact h
    · exact (parse_mono g).2.1 p t r (ihg (by omega) p t r h)

/-- No `(` token occurs in the list (so the group being parsed contains no
nested parenthesized group). -/
def noLParen (t : List Token) : Bool :=
  t.all (fun tok => !(tok.tokenType == .parenthesis && tok.value == .str "("))

lemma noLParen_suffix {s t : List Token} (h : noLParen t = true) (hs : s <:+ t) :
    noLParen s = true := by
  rw [noLParen, List.all_eq_true] at h ⊢
  exact fun tok htok => h tok (hs.subset htok)

lemma noLParen_tail {tok : Token} {rest : List Token}
    (h : noLParen (tok :: rest) = true) : noLParen rest = true :=
  noLParen_suffix h (List.suffix_cons tok rest)

lemma parse_append : ∀ (fuel : Nat),
    (∀ t n t', noLParen t = true → parsePrimary fuel t = some (n, t') →
      parsePrimary fuel (t ++ [parenToken ")"]) = some (n, t' ++ [parenToken ")"])) ∧
    (∀ p t n t', noLParen t = true → parseOperator fuel p t = some (n, t') →
      parseOperator fuel p (t ++ [parenToken ")"]) = some (n, t' ++ [parenToken ")"])) ∧
    (∀ p node t n t', noLParen t = true → parseLoop fuel p node t = some (n, t') →
      parseLoop fuel p node (t ++ [parenToken ")"]) = some (n, t' ++ [parenToken ")"])) := by
  intro fuel
  induction fuel with
  | zero =>
    refine ⟨?_, ?_, ?_⟩
    · intro t n t' _ h; rw [parsePrimary.eq_1] at h; cases h
    · intro p t n t' _ h; rw [parseOperator.eq_1] at h; cases h
    · intro p node t n t' _ h; rw [parseLoop.eq_1] at h; cases h
  | succ fuel ih =>
    obtain ⟨ihP, ihO, ihL⟩ := ih
    refine ⟨?_, ?_, ?_⟩
    · intro t n t' hnol h
      match t with
      | [] => rw [parsePrimary.eq_2] at h; cases h
      | ⟨.operand, v, prec, assoc⟩ :: rest =>
        rw [parsePrimary.eq_3] at h
        have h1 : some (ASTNode.leaf v, rest) = some (n, t') := h
        cases h1
        rw [List.cons_append, parsePrimary.eq_3]
      | ⟨.parenthesis, v, prec, assoc⟩ :: rest =>
        exfalso
        have hv : ¬(v = .str "(") := by
          intro hveq
          subst hveq
          simp [noLParen] at hnol
        rw [parsePrimary.eq_4, if_neg hv] at h
        cases h
      | ⟨.operator, v, prec, assoc⟩ :: rest =>
        rw [parsePrimary.eq_5] at h
        by_cases hv : v = .str "NOT"
        · rw [if_pos hv] at h
          cases hprim : parsePrimary fuel rest with
          | none =>
            rw [hprim] at h
            have h1 : (none : Option (ASTNode × List Token)) = some (n, t') := h
            cases h1
          | some pr =>
            obtain ⟨operand, rest'⟩ := pr
            rw [hprim] at h
            have h1 : some (ASTNode.unary v operand, rest') = some (n, t') := h
            cases h1
            rw [List.cons_append, parsePrimary.eq_5, if_pos hv,
              ihP rest operand t' (noLParen_tail hnol) hprim]
        · rw [if_neg hv] at h
          cases h
    · intro p t n t' hnol h
      rw [parseOperator.eq_2] at h
      cases hprim : parsePrimary fuel t with
      | none =>
        rw [hprim] at h
        have h1 : (none : Option (ASTNode × List Token)) = some (n, t') := h
        cases h1
      | some pr =>
        obtain ⟨node, rest⟩ := pr
        rw [hprim] at h
        have h1 : parseLoop fuel p node rest = some (n, t') := h
        have hrest : noLParen rest = true :=
          noLParen_suffix hnol ((parse_isSuffix fuel).1 t (node, rest) hprim)
        rw [parseOperator.eq_2, ihP t node rest hnol hprim]
        exact ihL p node rest n t' hrest h1
    · intro p node t n t' hnol h
      match t with
      | [] =>
        rw [parseLoop.eq_2] at h
        have h1 : some (node, ([] : List Token)) = some (n, t') := h
        cases h1
        have hnc : ¬((parenToken ")").tokenType = .operator ∧
            (parenToken ")").precedence ≥ p) := by
          intro hcon
          cases hcon.1
        rw [List.nil_append, parseLoop.eq_3, if_neg hnc]
      | tok :: rest =>
        rw [parseLoop.eq_3] at h
        by_cases hc : tok.tokenType = .operator ∧ tok.precedence ≥ p
        · rw [if_pos hc] at h
          have h0 : (match parseOperator fuel
                (if tok.associativity = "left" then tok.precedence + 1 else tok.precedence)
                rest with
              | none => none
              | some (right, rest1) =>
                parseLoop fuel p (.binary tok.value node right) rest1) = some (n, t') := h
          cases hop : parseOperator fuel
              (if tok.associativity = "left" then tok.precedence + 1 else tok.precedence)
              rest with
          | none =>
            rw [hop] at h0
            have h1 : (none : Option (ASTNode × List Token)) = some (n, t') := h0
            cases h1
          | some pr =>
            obtain ⟨right, rest1⟩ := pr
            rw [hop] at h0
            have h1 : parseLoop fuel p (.binary tok.value node right) rest1 = some (n, t') := h0
            have hrest : noLParen rest = true := noLParen_tail hnol
            have hrest1 : noLParen rest1 = true :=
              noLParen_suffix hrest ((parse_isSuffix fuel).2.1 _ rest (right, rest1) hop)
            rw [List.cons_append, parseLoop.eq_3, if_pos hc]
            show (match parseOperator fuel
                (if tok.associativity = "left" then tok.precedence + 1 else tok.precedence)
                (rest ++ [parenToken ")"]) with
              | none => none
              | some (right, rest1) =>
                parseLoop fuel p (.binary tok.value node right) rest1) = some (n, t' ++ [parenToken ")"])
            rw [ihO _ rest right rest1 hrest hop]
            exact ihL p _ rest1 n t' hrest1 h1
        · rw [if_neg hc] at h
          have h1 : some (node, tok :: rest) = some (n, t') := h
          cases h1
          rw [List.cons_append, parseLoop.eq_3, if_neg hc]

/-- C7: an opening parenthesis whose matching `)` is absent raises no
error.  `parse_primary` consumes `)` only when present, so a group that
extends to the end of the input is treated as if closed there, and the
parse result is the same tree, with all input consumed, as for the
properly closed input: if the group body `t` (itself free of nested `(`)
parses to `n` consuming everything, then both `( t` and `( t )` parse to
exactly `n` with no error and nothing left over. -/
theorem c7_missing_rparen_tolerated (t : List Token) (n : ASTNode)
    (hnol : noLParen t = true) (h : buildAst t = some (n, [])) :
    buildAst (parenToken "(" :: t) = some (n, []) ∧
    buildAst (parenToken "(" :: (t ++ [parenToken ")"])) = some (n, []) := by
  have hbase : parseOperator (2 * t.length + 2) 0 t = some (n, []) := h
  constructor
  · show parseOperator (2 * (parenToken "(" :: t).length + 2) 0 (parenToken "(" :: t) =
      some (n, [])
    have hlen1 : (parenToken "(" :: t).length = t.length + 1 := List.length_cons _ _
    rw [hlen1]
    have hprim : parsePrimary (2 * t.length + 3)
        (Token.mk .parenthesis (.str "(") 0 "" :: t) = some (n, []) := by
      rw [parsePrimary.eq_4, if_pos rfl, hbase]
    show parseOperator ((2 * t.length + 3) + 1) 0
        (Token.mk .parenthesis (.str "(") 0 "" :: t) = some (n, [])
    rw [parseOperator.eq_2, hprim]
    exact parseLoop_nil (2 * t.length + 2) 0 n
  · have hb2 : parseOperator (2 * t.length + 4) 0 t = some (n, []) :=
      parseOperator_mono_le (2 * t.length + 2) (2 * t.length + 4) (by omega) 0 t (n, []) hbase
    have happ : parseOperator (2 * t.length + 4) 0 (t ++ [parenToken ")"]) =
        some (n, [] ++ [parenToken ")"]) :=
      (parse_append (2 * t.length + 4)).2.1 0 t n [] hnol hb2
    show parseOperator (2 * (parenToken "(" :: (t ++ [parenToken ")"])).length + 2) 0
        (parenToken "(" :: (t ++ [parenToken ")"])) = some (n, [])
    have hlen2 : (parenToken "(" :: (t ++ [parenToken ")"])).length = t.length + 2 := by
      simp
    rw [hlen2]
    have hprim2 : parsePrimary (2 * t.length + 5)
        (Token.mk .parenthesis (.str "(") 0 "" :: (t ++ [parenToken ")"])) =
        some (n, []) := by
      rw [parsePrimary.eq_4, if_pos rfl, happ]
      rfl
    show parseOperator ((2 * t.length + 5) + 1) 0
        (Token.mk .parenthesis (.str "(") 0 "" :: (t ++ [parenToken ")"])) = some (n, [])
    rw [parseOperator.eq_2, hprim2]
    exact parseLoop_nil (2 * t.length + 4) 0 n

/-- Witness for C7: `( A AND B` and `( A AND B )` parse to the same tree
`A AND B` with nothing left over. -/
theorem c7_missing_rparen_tolerated_witness :
    buildAst (parenToken "(" :: [operandToken (.str "A"), opToken "AND" 2,
        operandToken (.str "B")]) =
      some (.binary (.str "AND") (.leaf (.str "A")) (.leaf (.str "B")), []) ∧
    buildAst (parenToken "(" :: ([operandToken (.str "A"), opToken "AND" 2,
        operandToken (.str "B")] ++ [parenToken ")"])) =
      some (.binary (.str "AND") (.leaf (.str "A")) (.leaf (.str "B")), []) :=
  c7_missing_rparen_tolerated
    [operandToken (.str "A"), opToken "AND" 2, operandToken (.str "B")]
    (.binary (.str "AND") (.leaf (.str "A")) (.leaf (.str "B"))) (by decide) rfl
